import Mathlib

/-!
# Verification of the audio-effects engine core

Shallow embedding of the block-based audio effects engine: parameter
smoothing (`SmoothParam`), chain routing (`EffectsChain`), the stereo
delay line, the reverb comb filter, the noise gate, the granular pitch
shifter and the STFT spectral filter, together with theorems checking
the specification claims against these definitions.

Python floats are modelled as exact numbers (`ℚ` for the purely
arithmetic kernels, `ℝ` where the source uses `exp`, `cos`, powers or
the FFT).  Python `%` on a possibly negative left operand and positive
modulus is `Int.emod`.  NumPy arrays are total functions from indices;
only indices below the stated size are meaningful.
-/

namespace AudioBlocks

/-- Model of `SmoothParam` (core.py lines 44-66): a `{current, target, lo, hi}`
quadruple.  The lock only guards mutation and has no value-level
behaviour, so it is not modelled. -/
structure SmoothParam (α : Type) where
  current : α
  target : α
  lo : α
  hi : α

variable {α : Type} [LinearOrderedField α]

/-- Model of `SmoothParam.__init__(value, lo, hi)`: current and target both start
at `value`. -/
def SmoothParam.init (value lo hi : α) : SmoothParam α :=
  { current := value, target := value, lo := lo, hi := hi }

/-- Model of `set_target` (core.py lines 52-54): clamp `v` into `[lo, hi]` and
store it as the target.  `current` is untouched. -/
def SmoothParam.set_target (p : SmoothParam α) (v : α) : SmoothParam α :=
  { p with target := min (max v p.lo) p.hi }

/-- Model of `nudge` (core.py lines 56-58): add `dv` to the target, then clamp. -/
def SmoothParam.nudge (p : SmoothParam α) (dv : α) : SmoothParam α :=
  { p with target := min (max (p.target + dv) p.lo) p.hi }

/-- The mutation performed by `step_towards` (core.py lines 63-66) once
the negative-step guard has passed: move `current` by the clamped delta
`min(max(target - current, -max_step), max_step)`. -/
def SmoothParam.stepCore (p : SmoothParam α) (max_step : α) : SmoothParam α :=
  { p with current := p.current + min (max (p.target - p.current) (-max_step)) max_step }

/-- Model of `step_towards` (core.py lines 60-66): raises `ValueError` on a
negative `max_step` (modelled as `none`), otherwise moves `current` and
returns the new `current` together with the new state. -/
def SmoothParam.step_towards (p : SmoothParam α) (max_step : α) :
    Option (α × SmoothParam α) :=
  if max_step < 0 then none
  else some ((p.stepCore max_step).current, p.stepCore max_step)

/-- Input routing of `EffectsChain.process` (core.py lines 114-122),
describing the content of the working buffer `_bufA` at columns
`c < channels_out`: mono-in/stereo-out duplicates column 0, otherwise
the first `min(ci, co)` columns are copied and the rest zero-filled.
Rows are sample indices, columns are channels. -/
def EffectsChain.route (ci co : ℕ) (inB : ℕ → ℕ → α) : ℕ → ℕ → α :=
  fun i c =>
    if ci = 1 ∧ co = 2 then inB i 0
    else if c < min ci co then inB i c else 0

/-- Model of `EffectsChain.process` (core.py lines 106-129): route the input into
the working layout, then thread it through the effects.  Each effect is
modelled as a total function on blocks (its `process_into` writes every
cell of its destination buffer, so the ping-pong scratch buffers carry
no state between effects). -/
def EffectsChain.process (effects : List ((ℕ → ℕ → α) → (ℕ → ℕ → α)))
    (ci co : ℕ) (inB : ℕ → ℕ → α) : ℕ → ℕ → α :=
  effects.foldl (fun buf e => e buf) (EffectsChain.route ci co inB)

/-- Hard clip to `[-1, 1]`, i.e. `np.clip(x, -1.0, 1.0)`. -/
def clip (x : α) : α := min (max x (-1)) 1

/-- Model of `delay_kernel` (delay.py lines 7-22).  Per sample: read the delayed
value at `(w - dS) % size`, emit it, write `input + delayed * feedback`
at `w`, advance `w` and wrap.  Returns the wet output list together
with the final buffer and write pointer. -/
def delay_kernel (size dS : ℕ) (feedback : ℚ) :
    List ℚ → (ℕ → ℚ) → ℕ → List ℚ × ((ℕ → ℚ) × ℕ)
  | [], buf, w => ([], (buf, w))
  | x :: xs, buf, w =>
    let r : ℕ := (((w : ℤ) - (dS : ℤ)) % (size : ℤ)).toNat
    let delayed := buf r
    let buf1 := Function.update buf w (x + delayed * feedback)
    let w1 := if w + 1 = size then 0 else w + 1
    let rest := delay_kernel size dS feedback xs buf1 w1
    (delayed :: rest.1, rest.2)

/-- State of `DelayLine` (delay.py lines 24-29). -/
structure DelayLine where
  fs : ℕ
  size : ℕ
  buf : ℕ → ℚ
  w : ℕ

/-- Model of `DelayLine.configure` (delay.py lines 31-35):
`size = int(fs * max_delay_ms / 1000) + 1`, zero buffer, `w = 0`.
Python `int` truncates toward zero; the arguments here are nonnegative,
so it is the floor. -/
def DelayLine.configure (fs : ℕ) (max_delay_ms : ℚ) : DelayLine :=
  { fs := fs
    size := (⌊(fs : ℚ) * max_delay_ms / 1000⌋).toNat + 1
    buf := fun _ => 0
    w := 0 }

/-- Model of `DelayLine.process_into` (delay.py lines 37-41): compute
`dS = int(fs * delay_ms / 1000)`, clamp it to `size - 1`, run the
kernel.  Returns the wet block and the updated line. -/
def DelayLine.process_into (dl : DelayLine) (x : List ℚ) (delay_ms feedback : ℚ) :
    List ℚ × DelayLine :=
  let d0 : ℕ := (⌊(dl.fs : ℚ) * delay_ms / 1000⌋).toNat
  let dS : ℕ := if dl.size ≤ d0 then dl.size - 1 else d0
  let res := delay_kernel dl.size dS feedback x dl.buf dl.w
  (res.1, { dl with buf := res.2.1, w := res.2.2 })

/-- State of `StereoDelayEffect` (delay.py lines 48-64). -/
structure StereoDelay where
  max_delay_ms : ℚ
  mix_dry : ℚ
  mix_wet : ℚ
  offset_ms : ℚ
  delay_ms : SmoothParam ℚ
  feedback : SmoothParam ℚ
  fb_step : ℚ
  step_samples : ℚ
  dlL : DelayLine
  dlR : DelayLine
  delay_step_ms : ℚ

/-- Model of `StereoDelayEffect.__init__` (delay.py lines 48-64) followed by
`prepare(sample_rate, ...)` (lines 70-75): configure both delay lines
and set `delay_step_ms = 1000 * step_samples / sample_rate`. -/
def StereoDelay.mkPrepared (max_delay_ms mix_dry mix_wet offset_ms delay_ms feedback
    fb_step step_samples : ℚ) (sample_rate : ℕ) : StereoDelay :=
  { max_delay_ms := max_delay_ms
    mix_dry := mix_dry
    mix_wet := mix_wet
    offset_ms := offset_ms
    delay_ms := SmoothParam.init delay_ms 1 (max_delay_ms - 1)
    feedback := SmoothParam.init feedback 0 (95 / 100)
    fb_step := fb_step
    step_samples := step_samples
    dlL := DelayLine.configure sample_rate max_delay_ms
    dlR := DelayLine.configure sample_rate max_delay_ms
    delay_step_ms := 1000 * (step_samples / (sample_rate : ℚ)) }

/-- Model of `StereoDelayEffect.process_into` (delay.py lines 77-93): step the
smoothed parameters, delay the right channel by `offset_ms` more than
the left (clamped), run both lines, then mix `dry * x + wet * delayed`
and hard-clip.  The input block is given as its two channel columns. -/
def StereoDelay.process_into (sd : StereoDelay) (xL xR : List ℚ) :
    (List ℚ × List ℚ) × StereoDelay :=
  let dL := (sd.delay_ms.stepCore sd.delay_step_ms).current
  let fb := (sd.feedback.stepCore sd.fb_step).current
  let dR := min (dL + sd.offset_ms) (sd.max_delay_ms - 1)
  let resL := sd.dlL.process_into xL dL fb
  let resR := sd.dlR.process_into xR dR fb
  let outL := List.zipWith (fun x wet => clip (sd.mix_dry * x + sd.mix_wet * wet)) xL resL.1
  let outR := List.zipWith (fun x wet => clip (sd.mix_dry * x + sd.mix_wet * wet)) xR resR.1
  ((outL, outR),
   { sd with delay_ms := sd.delay_ms.stepCore sd.delay_step_ms
             feedback := sd.feedback.stepCore sd.fb_step
             dlL := resL.2
             dlR := resR.2 })

/-- A unit impulse at sample 0: `1, 0, 0, ...`. -/
def impulse (n : ℕ) : ℚ := if n = 0 then 1 else 0

/-- The `StereoDelayEffect` of claim C1: constructor defaults
(`max_delay_ms = 1500`, mixes `0.8`, `offset_ms = 30`,
`delay_ms = 375`, `fb_step = 0.02`, `step_samples = 2`) with
`feedback = 0`, prepared at 48000 Hz. -/
def c1Delay : StereoDelay :=
  StereoDelay.mkPrepared 1500 (8 / 10) (8 / 10) 30 375 0 (2 / 100) 2 48000

/-- Left output of `c1Delay` processing one `n`-sample block whose both
channels carry the unit impulse. -/
def c1OutL (n : ℕ) : List ℚ :=
  (c1Delay.process_into ((List.range n).map impulse) ((List.range n).map impulse)).1.1

/-- Right output of `c1Delay` on the same impulse block. -/
def c1OutR (n : ℕ) : List ℚ :=
  (c1Delay.process_into ((List.range n).map impulse) ((List.range n).map impulse)).1.2

/-- State of one damped feedback comb filter (reverb.py line 164):
ring buffer, write pointer and one-pole lowpass state `lp`. -/
structure CombState where
  buf : ℕ → ℝ
  w : ℕ
  lp : ℝ

/-- The read position `(w - dS) % size` of the comb/allpass/delay
kernels of reverb.py (Python modulo on a positive modulus). -/
def ringRead (size dS w : ℕ) : ℕ :=
  (((w : ℤ) - (dS : ℤ)) % (size : ℤ)).toNat

/-- One iteration of the `comb_damped_kernel` loop body
(reverb.py lines 36-45): read the raw delayed value `y`, form
`damped = (1-h)*y + h*lp_prev`, store `damped` as the new lowpass
state, emit `y`, write `input + g*damped` at `w`, advance `w`. -/
noncomputable def combStep (size dS : ℕ) (g h : ℝ) (st : CombState) (x : ℝ) : ℝ × CombState :=
  let r := ringRead size dS st.w
  let y := st.buf r
  let damped := (1 - h) * y + h * st.lp
  (y, { buf := Function.update st.buf st.w (x + g * damped)
        w := if st.w + 1 = size then 0 else st.w + 1
        lp := damped })

/-- Model of `comb_damped_kernel` (reverb.py lines 33-46) over a whole block. -/
noncomputable def comb_damped_kernel (size dS : ℕ) (g h : ℝ) : List ℝ → CombState → List ℝ × CombState
  | [], st => ([], st)
  | x :: xs, st =>
    let fst := combStep size dS g h st x
    let rest := comb_damped_kernel size dS g h xs fst.2
    (fst.1 :: rest.1, rest.2)

/-- Model of `ReverbEffect._g_from_rt60` (reverb.py lines 204-205): the comb
feedback gain `10 ** (-3 * (L / fs) / max(1e-3, rt60))`. -/
noncomputable def g_from_rt60 (L fs : ℕ) (rt60 : ℝ) : ℝ :=
  (10 : ℝ) ^ (-3 * ((L : ℝ) / (fs : ℝ)) / max (1 / 1000) rt60)

/-- The peak-detection loop of `gate_kernel` (gate.py lines 21-25):
largest absolute value over channels `0, ..., channels-1`, starting
from `0.0`. -/
noncomputable def gatePeak (row : ℕ → ℝ) : ℕ → ℝ
  | 0 => 0
  | c + 1 => if gatePeak row c < |row c| then |row c| else gatePeak row c

/-- The target gain of `gate_kernel` (gate.py line 28): `1` when the
peak level exceeds the linear threshold, else `0`. -/
noncomputable def gateTarget (thresh : ℝ) (channels : ℕ) (row : ℕ → ℝ) : ℝ :=
  if thresh < gatePeak row channels then 1 else 0

/-- One iteration of the `gate_kernel` loop (gate.py lines 18-40):
the gain takes a one-pole step toward the target, with the attack
coefficient when below target and the release coefficient otherwise. -/
noncomputable def gateStep (thresh ac rc : ℝ) (channels : ℕ) (row : ℕ → ℝ) (gain : ℝ) : ℝ :=
  if gain < gateTarget thresh channels row
  then (1 - ac) * gain + ac * gateTarget thresh channels row
  else (1 - rc) * gain + rc * gateTarget thresh channels row

/-- The gain value of `gate_kernel` after processing samples
`0, ..., i-1`; `gateGains ... 0` is the incoming gain state. -/
noncomputable def gateGains (thresh ac rc : ℝ) (channels : ℕ) (x : ℕ → ℕ → ℝ) (g0 : ℝ) : ℕ → ℝ
  | 0 => g0
  | i + 1 => gateStep thresh ac rc channels (x i) (gateGains thresh ac rc channels x g0 i)

/-- Model of `gate_kernel` (gate.py lines 6-42): each output sample is the input
multiplied (on every channel) by the gain value after that sample's
update; the function also returns the final gain state. -/
noncomputable def gate_kernel (thresh ac rc : ℝ) (frames channels : ℕ) (x : ℕ → ℕ → ℝ) (g0 : ℝ) :
    (ℕ → ℕ → ℝ) × ℝ :=
  (fun i c => x i c * gateGains thresh ac rc channels x g0 (i + 1),
   gateGains thresh ac rc channels x g0 frames)

/-- State of `NoiseGateEffect` (gate.py lines 46-54, 60-61). -/
structure NoiseGate where
  threshold_db : SmoothParam ℝ
  attack_ms : SmoothParam ℝ
  release_ms : SmoothParam ℝ
  gain_state : ℝ
  fs : ℝ

/-- Model of `NoiseGateEffect._calc_coeff` (gate.py lines 63-69):
`1 - exp(-2.2 / (max(1e-3, time_ms * 1e-3) * fs))`. -/
noncomputable def calc_coeff (fs time_ms : ℝ) : ℝ :=
  1 - Real.exp (-(22 / 10) / (max (1 / 1000) (time_ms * (1 / 1000)) * fs))

/-- Model of `NoiseGateEffect.process_into` (gate.py lines 71-90): step the three
smoothed parameters once for the block, derive the linear threshold and
the attack/release coefficients, then run the kernel.  Returns the
output block and the updated effect state. -/
noncomputable def NoiseGate.process_into (gt : NoiseGate) (x : ℕ → ℕ → ℝ)
    (frames channels : ℕ) : (ℕ → ℕ → ℝ) × NoiseGate :=
  let th := (gt.threshold_db.stepCore 1).current
  let att := (gt.attack_ms.stepCore 5).current
  let rel := (gt.release_ms.stepCore 10).current
  let thresh_lin : ℝ := (10 : ℝ) ^ (th / 20)
  let ac := calc_coeff gt.fs att
  let rc := calc_coeff gt.fs rel
  let res := gate_kernel thresh_lin ac rc frames channels x gt.gain_state
  (res.1,
   { gt with threshold_db := gt.threshold_db.stepCore 1
             attack_ms := gt.attack_ms.stepCore 5
             release_ms := gt.release_ms.stepCore 10
             gain_state := res.2 })

/-- Python `int(x)`: truncation toward zero. -/
noncomputable def pyInt (x : ℝ) : ℤ :=
  if 0 ≤ x then ⌊x⌋ else -⌊-x⌋

/-- Model of `cubic_interp` (octaver.py lines 10-15): 4-point Hermite
interpolation at fractional position `x`. -/
noncomputable def cubic_interp (x y0 y1 y2 y3 : ℝ) : ℝ :=
  let c0 := y1
  let c1 := (1 / 2) * (y2 - y0)
  let c2 := y0 - (5 / 2) * y1 + 2 * y2 - (1 / 2) * y3
  let c3 := (1 / 2) * (y3 - y0) + (3 / 2) * (y1 - y2)
  ((c3 * x + c2) * x + c1) * x + c0

/-- State threaded through `pitch_shift_kernel_cubic`. -/
structure OctState where
  buf : ℕ → ℝ
  w : ℕ
  phasor : ℝ

/-- One tap of `pitch_shift_kernel_cubic` (octaver.py lines 36-62):
read position `w - p*size + size`, truncated; four neighbouring
samples fetched modulo `size`; cubic interpolation at the fractional
part. -/
noncomputable def octTap (buf : ℕ → ℝ) (w size : ℕ) (p : ℝ) : ℝ :=
  let raw : ℝ := (w : ℝ) - p * (size : ℝ) + (size : ℝ)
  let idxf : ℤ := pyInt raw
  let frac : ℝ := raw - (idxf : ℝ)
  let i0 : ℕ := ((idxf - 1) % (size : ℤ)).toNat
  let i1 : ℕ := (idxf % (size : ℤ)).toNat
  let i2 : ℕ := ((idxf + 1) % (size : ℤ)).toNat
  let i3 : ℕ := ((idxf + 2) % (size : ℤ)).toNat
  cubic_interp frac (buf i0) (buf i1) (buf i2) (buf i3)

/-- One iteration of the `pitch_shift_kernel_cubic` loop (octaver.py
lines 26-80): write the input, read the two half-phase-offset taps,
weight them by the Hann window of their phases, sum, then advance the
write pointer and the phasor (wrapping the phasor into `[0, 1)`). -/
noncomputable def octStep (size : ℕ) (step : ℝ) (st : OctState) (x : ℝ) : ℝ × OctState :=
  let buf1 := Function.update st.buf st.w x
  let p1 := st.phasor
  let p2 := if 1 ≤ st.phasor + 1 / 2 then st.phasor + 1 / 2 - 1 else st.phasor + 1 / 2
  let samp1 := octTap buf1 st.w size p1
  let samp2 := octTap buf1 st.w size p2
  let gain1 := (1 / 2) * (1 - Real.cos (2 * Real.pi * p1))
  let gain2 := (1 / 2) * (1 - Real.cos (2 * Real.pi * p2))
  let w1 := if size ≤ st.w + 1 then 0 else st.w + 1
  let ph := st.phasor + step
  let ph1 := if 1 ≤ ph then ph - 1 else if ph < 0 then ph + 1 else ph
  (samp1 * gain1 + samp2 * gain2, { buf := buf1, w := w1, phasor := ph1 })

/-- Model of `pitch_shift_kernel_cubic` (octaver.py lines 17-82) over a block. -/
noncomputable def pitch_shift_kernel_cubic (size : ℕ) (step : ℝ) :
    List ℝ → OctState → List ℝ × OctState
  | [], st => ([], st)
  | x :: xs, st =>
    let fst := octStep size step st x
    let rest := pitch_shift_kernel_cubic size step xs fst.2
    (fst.1 :: rest.1, rest.2)

/-- State of `OctaverEffect` (octaver.py lines 85-98, 103-114). -/
structure Octaver where
  semitones : SmoothParam ℝ
  mix : SmoothParam ℝ
  window_ms : ℝ
  fs : ℕ
  st : OctState
  size : ℕ

/-- The phasor step computed by `OctaverEffect.process_into`
(octaver.py lines 120-122): `ratio = 2 ** (semi / 12)`,
`step = (1 - ratio) / size`. -/
noncomputable def octaverPhasorStep (semi : ℝ) (size : ℕ) : ℝ :=
  (1 - (2 : ℝ) ^ (semi / 12)) / (size : ℝ)

/-- Mono mix `np.mean(x_in, axis=1)` (octaver.py line 126): channel
average of a row (the source only takes it when `channels > 1`; for one
channel the mean equals the single column, so the same formula serves
both branches). -/
noncomputable def monoMix (channels : ℕ) (row : ℕ → ℝ) : ℝ :=
  (∑ c ∈ Finset.range channels, row c) / (channels : ℝ)

/-- Model of `OctaverEffect.process_into` (octaver.py lines 116-150): step the
smoothed `semitones` and `mix` (0.5 and 0.05 per block), compute the
phasor step, mix the input to mono, run the kernel, then blend
`dry * input_channel + wet * mono_wet` per output channel. -/
noncomputable def Octaver.process_into (oc : Octaver) (x : ℕ → ℕ → ℝ)
    (frames channels : ℕ) : (ℕ → ℕ → ℝ) × Octaver :=
  let semi := (oc.semitones.stepCore (1 / 2)).current
  let mix_now := (oc.mix.stepCore (5 / 100)).current
  let step := octaverPhasorStep semi oc.size
  let mono_in := (List.range frames).map (fun i => monoMix channels (x i))
  let res := pitch_shift_kernel_cubic oc.size step mono_in oc.st
  let wet : ℕ → ℝ := fun i => res.1.getD i 0
  (fun i c => x i c * (1 - mix_now) + wet i * mix_now,
   { oc with semitones := oc.semitones.stepCore (1 / 2)
             mix := oc.mix.stepCore (5 / 100)
             st := res.2 })

/-- The non-`prepare` allocations that `OctaverEffect.process_into`
performs per call, counted from octaver.py: `np.mean` creates a fresh
mono array when the input has more than one channel (line 126), and
`np.zeros_like` creates the `mono_wet` buffer on every call
(line 131). -/
def octaverProcessAllocations (channels : ℕ) : ℕ :=
  (if 1 < channels then 1 else 0) + 1

/-- Window `np.hanning(M)[i] = 0.5 - 0.5*cos(2*pi*i/(M-1))`, the symmetric
Hann window used by `SpectralFilter` (spectral.py lines 17, 39). -/
noncomputable def hann (M i : ℕ) : ℝ :=
  1 / 2 - 1 / 2 * Real.cos (2 * Real.pi * (i : ℝ) / ((M : ℝ) - 1))

/-- Model of `np.fft.rfft` (spectral.py line 60): bin `k` of the length-`N`
discrete Fourier transform `sum_j exp(-2*pi*I*j*k/N) * v[j]` of a real
vector, meaningful for `k ≤ N/2`.  `ZMod.dft` uses exactly this sign
convention. -/
noncomputable def npRfft (N : ℕ) (v : ℕ → ℝ) (k : ℕ) : ℂ :=
  if h : N = 0 then 0
  else
    haveI : NeZero N := ⟨h⟩
    ZMod.dft (fun j : ZMod N => ((v j.val : ℝ) : ℂ)) ((k : ZMod N))

/-- Model of `np.fft.irfft` (spectral.py line 77): rebuild the full length-`N`
spectrum from the half spectrum by Hermitian symmetry
(`F[k] = A[k]` for `k ≤ N/2`, `F[k] = conj(A[N-k])` above), invert the
full DFT, and return the (real) result. -/
noncomputable def npIrfft (N : ℕ) (A : ℕ → ℂ) (i : ℕ) : ℝ :=
  if h : N = 0 then 0
  else
    haveI : NeZero N := ⟨h⟩
    (((ZMod.dft (N := N)).symm
        (fun k : ZMod N =>
          if k.val ≤ N / 2 then A k.val else (starRingEnd ℂ) (A (N - k.val))))
      ((i : ZMod N))).re

/-- State of `SpectralFilter` (spectral.py lines 6-25): smoothed
parameters, hop size (= engine block size; `n_fft = 2 * hop`), input
history ring, overlap-add accumulator, smoothed mask, smoothing
factor `alpha`. -/
structure SpectralState where
  threshold_db : SmoothParam ℝ
  reduction : SmoothParam ℝ
  hop : ℕ
  in_buffer : ℕ → ℝ
  out_accum : ℕ → ℝ
  mask_smooth : ℕ → ℝ
  alpha : ℝ

/-- Model of `SpectralFilter.__init__` (spectral.py lines 6-25) followed by
`prepare` for block size `hop` (lines 30-42): zero input/accumulator
buffers, mask initialised to ones. -/
noncomputable def SpectralFilter.init (threshold_db reduction smoothing : ℝ)
    (hop : ℕ) : SpectralState :=
  { threshold_db := SmoothParam.init threshold_db (-80) 0
    reduction := SmoothParam.init reduction 0 1
    hop := hop
    in_buffer := fun _ => 0
    out_accum := fun _ => 0
    mask_smooth := fun _ => 1
    alpha := smoothing }

/-- The input-ring shift of `SpectralFilter.process_into`
(spectral.py lines 53-56): drop the oldest `hop` samples and append the
new mono block at the tail of the `2*hop`-long history. -/
noncomputable def specShiftIn (hop : ℕ) (in_buffer mono : ℕ → ℝ) : ℕ → ℝ :=
  fun i => if i < 2 * hop - hop then in_buffer (i + hop)
           else mono (i - (2 * hop - hop))

/-- The mask update of `SpectralFilter.process_into`
(spectral.py lines 62-71): raw mask is `1` on bins whose magnitude
exceeds the linear threshold and `red` elsewhere; the stored mask is
the exponential smoothing `alpha * previous + (1 - alpha) * raw`. -/
noncomputable def specMask (alpha thresh red : ℝ) (maskPrev v : ℕ → ℝ) (N : ℕ) : ℕ → ℝ :=
  fun k => alpha * maskPrev k
    + (1 - alpha) * (if thresh < Complex.abs (npRfft N v k) then 1 else red)

/-- The synthesis stage of `SpectralFilter.process_into`
(spectral.py lines 74-77): inverse transform of
`magnitude * mask * exp(I * phase)` of the forward transform of `v`. -/
noncomputable def specSynth (N : ℕ) (mask v : ℕ → ℝ) : ℕ → ℝ :=
  npIrfft N (fun k =>
    ((Complex.abs (npRfft N v k) * mask k : ℝ) : ℂ)
      * Complex.exp ((Complex.arg (npRfft N v k) : ℂ) * Complex.I))

/-- The windowed analysis frame of `SpectralFilter.process_into`
(spectral.py line 60): shifted input history times the Hann window. -/
noncomputable def specWindowed (st : SpectralState) (x : ℕ → ℕ → ℝ) (channels : ℕ) :
    ℕ → ℝ :=
  fun i => specShiftIn st.hop st.in_buffer (fun t => monoMix channels (x t)) i
    * hann (2 * st.hop) i

/-- The smoothed mask stored by `SpectralFilter.process_into`
(spectral.py lines 68-71), with the block-stepped threshold and
reduction parameters (lines 46-49). -/
noncomputable def specNewMask (st : SpectralState) (x : ℕ → ℕ → ℝ) (channels : ℕ) :
    ℕ → ℝ :=
  specMask st.alpha ((10 : ℝ) ^ ((st.threshold_db.stepCore 1).current / 20))
    ((st.reduction.stepCore (5 / 100)).current) st.mask_smooth
    (specWindowed st x channels) (2 * st.hop)

/-- Value `processed_time` of `SpectralFilter.process_into`
(spectral.py line 77). -/
noncomputable def specPT (st : SpectralState) (x : ℕ → ℕ → ℝ) (channels : ℕ) : ℕ → ℝ :=
  specSynth (2 * st.hop) (specNewMask st x channels) (specWindowed st x channels)

/-- Model of `SpectralFilter.process_into` (spectral.py lines 44-100): step the
parameters; shift the input ring by `hop` and append the mono-mixed
block; window and forward-transform; build the raw mask
(`1` where the magnitude exceeds the linear threshold, else the
reduction factor); smooth the mask; resynthesise
`magnitude * mask * exp(I*phase)`; inverse-transform; add into the
accumulator; emit the first `hop` accumulator samples (the same mono
signal goes to every output channel); shift the accumulator and zero
its tail. -/
noncomputable def SpectralFilter.process_into (st : SpectralState) (x : ℕ → ℕ → ℝ)
    (channels : ℕ) : (ℕ → ℝ) × SpectralState :=
  (fun i => st.out_accum i + specPT st x channels i,
   { st with threshold_db := st.threshold_db.stepCore 1
             reduction := st.reduction.stepCore (5 / 100)
             in_buffer := specShiftIn st.hop st.in_buffer
               (fun t => monoMix channels (x t))
             out_accum := fun i =>
               if i < 2 * st.hop - st.hop
               then st.out_accum (i + st.hop) + specPT st x channels (i + st.hop)
               else 0
             mask_smooth := specNewMask st x channels })

/-- Drive a `SpectralFilter` with consecutive blocks of the mono stream
`x` (block `j` holds samples `x (j*hop), ..., x (j*hop + hop - 1)`,
presented as a one-channel block): state after `j` calls. -/
noncomputable def specRun (st0 : SpectralState) (x : ℕ → ℝ) : ℕ → SpectralState
  | 0 => st0
  | j + 1 =>
    (SpectralFilter.process_into (specRun st0 x j) (fun i _ => x (j * st0.hop + i)) 1).2

/-- The block emitted by the `j`-th call of the run. -/
noncomputable def specEmit (st0 : SpectralState) (x : ℕ → ℝ) (j : ℕ) : ℕ → ℝ :=
  (SpectralFilter.process_into (specRun st0 x j) (fun i _ => x (j * st0.hop + i)) 1).1

/-- The mono stream extended by zeros to negative times. -/
def extZ (x : ℕ → ℝ) (t : ℤ) : ℝ := if t < 0 then 0 else x t.toNat

/-- Invariant of the `reduction = 1` spectral run after `j` calls:
the reduction parameter is pinned at `1`, the smoothed mask is still
all-ones, the input history holds the last `2*hop` stream samples
(zero before time 0), and the accumulator holds exactly the tail
contribution of the last frame. -/
def specGood (x : ℕ → ℝ) (hop j : ℕ) (st : SpectralState) : Prop :=
  st.hop = hop ∧
  st.reduction.current = 1 ∧ st.reduction.target = 1 ∧
  (∀ k, st.mask_smooth k = 1) ∧
  (∀ i, i < 2 * hop → st.in_buffer i = extZ x ((j : ℤ) * hop + i - 2 * hop)) ∧
  (∀ i, st.out_accum i = if i < hop
      then hann (2 * hop) (i + hop) * extZ x ((j : ℤ) * hop + i - hop) else 0)

/-! ## Shared lemmas -/

/-- A smoothed parameter whose current value already equals its target
is left unchanged by `stepCore` (for a nonnegative step). -/
lemma stepCore_fixed {α : Type} [LinearOrderedField α] {p : SmoothParam α} {m : α}
    (h : p.target = p.current) (hm : 0 ≤ m) :
    (p.stepCore m).current = p.current := by
  unfold SmoothParam.stepCore
  rw [h, sub_self, max_eq_left (neg_nonpos.mpr hm), min_eq_left hm, add_zero]

/-- Fusing `zipWith` of two maps over the same list. -/
lemma zipWith_map_same {α β γ δ : Type} (f : β → γ → δ) (g : α → β) (h : α → γ)
    (l : List α) :
    List.zipWith f (l.map g) (l.map h) = l.map fun a => f (g a) (h a) := by
  induction l with
  | nil => rfl
  | cons a t ih => simp [ih]

/-! ## C7: `SmoothParam.step_towards` -/

/-- C7: for `maxStep ≥ 0`, `step_towards` succeeds and returns the new
current value; the current value moves by at most `maxStep` in absolute
value, stays between the old current and the target (no overshoot),
and lands exactly on the target whenever `|target - current| ≤ maxStep`;
a negative `maxStep` raises (returns `none`). -/
theorem spec_c7_step_towards (p : SmoothParam ℚ) (m : ℚ) (hm : 0 ≤ m) :
    p.step_towards m = some ((p.stepCore m).current, p.stepCore m) ∧
    |(p.stepCore m).current - p.current| ≤ m ∧
    min p.current p.target ≤ (p.stepCore m).current ∧
    (p.stepCore m).current ≤ max p.current p.target ∧
    (|p.target - p.current| ≤ m → (p.stepCore m).current = p.target) ∧
    ∀ m2 : ℚ, m2 < 0 → p.step_towards m2 = none := by
  refine ⟨?_, ?_, ?_, ?_, ?_, ?_⟩
  · simp [SmoothParam.step_towards, not_lt.mpr hm]
  · unfold SmoothParam.stepCore
    rw [add_sub_cancel_left, abs_le]
    exact ⟨le_min (le_max_right _ _) (by linarith), min_le_right _ _⟩
  · unfold SmoothParam.stepCore
    dsimp only
    rcases le_total p.current p.target with h | h
    · rw [min_eq_left h]
      have h1 : (0 : ℚ) ≤ min (max (p.target - p.current) (-m)) m :=
        le_min (le_trans (by linarith) (le_max_left _ _)) hm
      linarith
    · rw [min_eq_right h]
      have h1 : p.target - p.current ≤ min (max (p.target - p.current) (-m)) m :=
        le_min (le_max_left _ _) (by linarith)
      linarith
  · unfold SmoothParam.stepCore
    dsimp only
    rcases le_total p.current p.target with h | h
    · rw [max_eq_right h]
      have h1 : min (max (p.target - p.current) (-m)) m ≤ max (p.target - p.current) (-m) :=
        min_le_left _ _
      have h2 : max (p.target - p.current) (-m) ≤ p.target - p.current :=
        max_le (le_refl _) (by linarith)
      linarith
    · rw [max_eq_left h]
      have h1 : min (max (p.target - p.current) (-m)) m ≤ m := min_le_right _ _
      have h2 : max (p.target - p.current) (-m) ≤ 0 :=
        max_le (by linarith) (by linarith)
      have h3 : min (max (p.target - p.current) (-m)) m ≤ 0 :=
        le_trans (min_le_left _ _) h2
      linarith
  · intro h
    rw [abs_le] at h
    unfold SmoothParam.stepCore
    rw [max_eq_left h.1, min_eq_left h.2]
    ring
  · intro m2 hm2
    simp [SmoothParam.step_towards, hm2]

/-- Witness for C7: from current `1` toward target `5` with step `4`
the parameter lands exactly on the target. -/
theorem spec_c7_step_towards_witness :
    (0 : ℚ) ≤ 4 ∧ ((SmoothParam.mk (1 : ℚ) 5 0 10).stepCore 4).current = 5 :=
  ⟨by norm_num,
   (spec_c7_step_towards (SmoothParam.mk (1 : ℚ) 5 0 10) 4 (by norm_num)).2.2.2.2.1
     (by norm_num)⟩

/-! ## C8: `set_target` / `nudge` clamping -/

/-- C8: if the stored target satisfies `lo ≤ target ≤ hi`, then after
`set_target v` or `nudge dv` (both total functions: out-of-range
arguments are clamped, never rejected) the new target again satisfies
`lo ≤ target ≤ hi`, and `current` is not modified. -/
theorem spec_c8_clamp (p : SmoothParam ℚ) (v dv : ℚ)
    (h1 : p.lo ≤ p.target) (h2 : p.target ≤ p.hi) :
    ((p.set_target v).lo ≤ (p.set_target v).target ∧
      (p.set_target v).target ≤ (p.set_target v).hi) ∧
    ((p.nudge dv).lo ≤ (p.nudge dv).target ∧
      (p.nudge dv).target ≤ (p.nudge dv).hi) ∧
    (p.set_target v).current = p.current ∧
    (p.nudge dv).current = p.current := by
  have hlh : p.lo ≤ p.hi := h1.trans h2
  refine ⟨⟨?_, ?_⟩, ⟨?_, ?_⟩, rfl, rfl⟩
  · exact le_min (le_max_right _ _) hlh
  · exact min_le_right _ _
  · exact le_min (le_max_right _ _) hlh
  · exact min_le_right _ _

/-- Witness for C8 at a concrete parameter and out-of-range inputs. -/
theorem spec_c8_clamp_witness :
    (0 : ℚ) ≤ 5 ∧ (5 : ℚ) ≤ 10 ∧
    ((SmoothParam.mk (2 : ℚ) 5 0 10).set_target 100).target ≤
      ((SmoothParam.mk (2 : ℚ) 5 0 10).set_target 100).hi :=
  ⟨by norm_num, by norm_num,
   (spec_c8_clamp (SmoothParam.mk (2 : ℚ) 5 0 10) 100 (-100)
     (by norm_num) (by norm_num)).1.2⟩

/-! ## C4: `EffectsChain.process` channel routing -/

/-- C4: the routing step duplicates channel 0 into both working
channels in the mono-in/stereo-out case; otherwise it copies the first
`min(ci, co)` channels and zero-fills the remaining output channels;
with an empty effects list and mono-in/stereo-out, both columns of the
chain output equal the input's channel 0. -/
theorem spec_c4_routing (ci co : ℕ) (inB : ℕ → ℕ → ℚ) (i c : ℕ) :
    (ci = 1 → co = 2 → c < 2 → EffectsChain.route ci co inB i c = inB i 0) ∧
    (¬(ci = 1 ∧ co = 2) → c < min ci co →
      EffectsChain.route ci co inB i c = inB i c) ∧
    (¬(ci = 1 ∧ co = 2) → min ci co ≤ c →
      EffectsChain.route ci co inB i c = 0) ∧
    (c < 2 → EffectsChain.process [] 1 2 inB i c = inB i 0) := by
  refine ⟨fun hci hco _ => ?_, fun hn hc => ?_, fun hn hc => ?_, fun _ => ?_⟩
  · simp [EffectsChain.route, hci, hco]
  · simp [EffectsChain.route, hn, hc]
  · simp [EffectsChain.route, hn, not_lt.mpr hc]
  · simp [EffectsChain.process, EffectsChain.route]

/-- Witness for C4: empty chain, mono-in/stereo-out, column 1 of row 3
carries channel 0 of the input. -/
theorem spec_c4_routing_witness :
    (1 : ℕ) < 2 ∧
    EffectsChain.process [] 1 2 (fun i c => (i * 10 + c : ℚ)) 3 1
      = (fun i c => (i * 10 + c : ℚ)) 3 0 :=
  ⟨by norm_num,
   (spec_c4_routing 1 2 (fun i c => (i * 10 + c : ℚ)) 3 1).2.2.2 (by norm_num)⟩

/-! ## C9: allocation inside `OctaverEffect.process_into` -/

/-- C9 is refuted by the code: every call of
`OctaverEffect.process_into` allocates at least one fresh buffer
(`mono_wet` via `np.zeros_like`, octaver.py line 131, plus the
`np.mean` result for multi-channel input, line 126), so the claim that
the processing path performs no allocation fails. -/
theorem spec_c9_octaver_allocates (channels : ℕ) :
    0 < octaverProcessAllocations channels :=
  Nat.succ_pos _

/-! ## C3: reverb comb filter update and feedback gain -/

/-- The comb feedback gain at `L = 1000`, `fs = 48000`, `rt60 = 1.5`
is `10 ^ (-1/24)`. -/
lemma g_from_rt60_eq : g_from_rt60 1000 48000 (3 / 2) = (10 : ℝ) ^ (-(1 / 24) : ℝ) := by
  unfold g_from_rt60
  rw [max_eq_right (by norm_num : (1 / 1000 : ℝ) ≤ 3 / 2)]
  congr 1
  push_cast
  norm_num

/-- Numerical bounds on the comb feedback gain: `g ≈ 0.909`. -/
lemma g_from_rt60_bounds :
    (908 / 1000 : ℝ) < g_from_rt60 1000 48000 (3 / 2) ∧
    g_from_rt60 1000 48000 (3 / 2) < 909 / 1000 := by
  have hg : g_from_rt60 1000 48000 (3 / 2) = (10 : ℝ) ^ (-(1 / 24) : ℝ) := g_from_rt60_eq
  have hpos : (0 : ℝ) ≤ g_from_rt60 1000 48000 (3 / 2) := by
    rw [hg]; exact Real.rpow_nonneg (by norm_num) _
  have h24 : g_from_rt60 1000 48000 (3 / 2) ^ (24 : ℕ) = 1 / 10 := by
    rw [hg, ← Real.rpow_natCast ((10 : ℝ) ^ (-(1 / 24) : ℝ)) 24,
      ← Real.rpow_mul (by norm_num : (0 : ℝ) ≤ 10)]
    rw [show (-(1 / 24) * ((24 : ℕ) : ℝ) : ℝ) = -1 by push_cast; ring]
    rw [Real.rpow_neg_one]
    norm_num
  constructor
  · apply lt_of_pow_lt_pow_left₀ 24 hpos
    rw [h24]
    norm_num
  · apply lt_of_pow_lt_pow_left₀ 24 (by norm_num : (0 : ℝ) ≤ 909 / 1000)
    rw [h24]
    norm_num

/-- C3: one comb iteration reads `y` at `(w - L) mod size`, forms the
damped value `(1-h)*y + h*lpPrev`, stores it as the new lowpass state,
writes `input + g * damped` at `w` (touching no other slot), and emits
the raw delayed value; the block kernel is the per-sample iteration of
this step; and `g = 10^(-3*(L/fs)/rt60)` evaluates to `≈ 0.909`
(between 0.908 and 0.909) at `L = 1000`, `fs = 48000`, `rt60 = 1.5`. -/
theorem spec_c3_comb (size dS : ℕ) (g h : ℝ) (st : CombState) (x : ℝ) (xs : List ℝ) :
    (combStep size dS g h st x).2.lp
        = (1 - h) * st.buf (ringRead size dS st.w) + h * st.lp ∧
    (combStep size dS g h st x).2.buf st.w
        = x + g * ((1 - h) * st.buf (ringRead size dS st.w) + h * st.lp) ∧
    (∀ j, j ≠ st.w → (combStep size dS g h st x).2.buf j = st.buf j) ∧
    (combStep size dS g h st x).1 = st.buf (ringRead size dS st.w) ∧
    comb_damped_kernel size dS g h (x :: xs) st
        = ((combStep size dS g h st x).1
            :: (comb_damped_kernel size dS g h xs (combStep size dS g h st x).2).1,
           (comb_damped_kernel size dS g h xs (combStep size dS g h st x).2).2) ∧
    (908 / 1000 : ℝ) < g_from_rt60 1000 48000 (3 / 2) ∧
    g_from_rt60 1000 48000 (3 / 2) < 909 / 1000 ∧
    |g_from_rt60 1000 48000 (3 / 2) - 909 / 1000| < 1 / 1000 := by
  refine ⟨rfl, ?_, fun j hj => ?_, rfl, rfl, g_from_rt60_bounds.1, g_from_rt60_bounds.2, ?_⟩
  · show Function.update st.buf st.w
        (x + g * ((1 - h) * st.buf (ringRead size dS st.w) + h * st.lp)) st.w = _
    rw [Function.update_same]
  · show Function.update st.buf st.w
        (x + g * ((1 - h) * st.buf (ringRead size dS st.w) + h * st.lp)) j = st.buf j
    rw [Function.update_noteq hj]
  · have h1 := g_from_rt60_bounds.1
    have h2 := g_from_rt60_bounds.2
    rw [abs_lt]
    constructor <;> linarith

/-- Witness for C3 at a concrete comb state. -/
theorem spec_c3_comb_witness :
    (3 : ℕ) ≠ (CombState.mk (fun _ => (0 : ℝ)) 0 0).w ∧
    (combStep 4 1 2 0 (CombState.mk (fun _ => (0 : ℝ)) 0 0) 1).2.buf 3
      = (CombState.mk (fun _ => (0 : ℝ)) 0 0).buf 3 :=
  ⟨by decide,
   (spec_c3_comb 4 1 2 0 (CombState.mk (fun _ => (0 : ℝ)) 0 0) 1 []).2.2.1 3 (by decide)⟩

/-! ## C10 and C5: noise gate -/

/-- The attack/release coefficient always lies in `[0, 1)` for a
positive sample rate. -/
lemma calc_coeff_mem (fs t : ℝ) (hfs : 0 < fs) :
    0 ≤ calc_coeff fs t ∧ calc_coeff fs t ≤ 1 := by
  unfold calc_coeff
  have hden : 0 < max (1 / 1000) (t * (1 / 1000)) * fs :=
    mul_pos (lt_of_lt_of_le (by norm_num) (le_max_left _ _)) hfs
  constructor
  · have hexp : Real.exp (-(22 / 10) / (max (1 / 1000) (t * (1 / 1000)) * fs)) ≤ 1 := by
      rw [Real.exp_le_one_iff]
      exact div_nonpos_of_nonpos_of_nonneg (by norm_num) hden.le
    linarith
  · have hpos := Real.exp_pos (-(22 / 10) / (max (1 / 1000) (t * (1 / 1000)) * fs))
    linarith

/-- The gate gain stays in `[0, 1]` along the whole block when the
coefficients and the incoming gain are in `[0, 1]`. -/
lemma gateGains_mem (thresh ac rc : ℝ) (channels : ℕ) (x : ℕ → ℕ → ℝ) (g0 : ℝ)
    (hac0 : 0 ≤ ac) (hac1 : ac ≤ 1) (hrc0 : 0 ≤ rc) (hrc1 : rc ≤ 1)
    (hg0 : 0 ≤ g0) (hg1 : g0 ≤ 1) :
    ∀ i, 0 ≤ gateGains thresh ac rc channels x g0 i ∧
      gateGains thresh ac rc channels x g0 i ≤ 1 := by
  intro i
  induction i with
  | zero => exact ⟨hg0, hg1⟩
  | succ n ih =>
    have ht : (0 : ℝ) ≤ gateTarget thresh channels (x n) ∧
        gateTarget thresh channels (x n) ≤ 1 := by
      unfold gateTarget
      split_ifs <;> norm_num
    show (0 ≤ gateStep thresh ac rc channels (x n)
        (gateGains thresh ac rc channels x g0 n)) ∧
      gateStep thresh ac rc channels (x n) (gateGains thresh ac rc channels x g0 n) ≤ 1
    unfold gateStep
    split_ifs with hlt
    · constructor <;> nlinarith [ih.1, ih.2, ht.1, ht.2]
    · constructor <;> nlinarith [ih.1, ih.2, ht.1, ht.2]

/-- C10: if the stored gain is in `[0, 1]`, it is again in `[0, 1]`
after `process_into`, and every output sample is the input sample
scaled by a factor in `[0, 1]`: no larger in absolute value and never
of opposite sign. -/
theorem spec_c10_gate_attenuates (gt : NoiseGate) (x : ℕ → ℕ → ℝ)
    (frames channels : ℕ)
    (hg0 : 0 ≤ gt.gain_state) (hg1 : gt.gain_state ≤ 1) (hfs : 0 < gt.fs) :
    (0 ≤ (gt.process_into x frames channels).2.gain_state ∧
      (gt.process_into x frames channels).2.gain_state ≤ 1) ∧
    ∀ i c, |(gt.process_into x frames channels).1 i c| ≤ |x i c| ∧
      0 ≤ (gt.process_into x frames channels).1 i c * x i c := by
  have hac := calc_coeff_mem gt.fs ((gt.attack_ms.stepCore 5).current) hfs
  have hrc := calc_coeff_mem gt.fs ((gt.release_ms.stepCore 10).current) hfs
  have hgm := gateGains_mem ((10 : ℝ) ^ ((gt.threshold_db.stepCore 1).current / 20))
    (calc_coeff gt.fs ((gt.attack_ms.stepCore 5).current))
    (calc_coeff gt.fs ((gt.release_ms.stepCore 10).current))
    channels x gt.gain_state hac.1 hac.2 hrc.1 hrc.2 hg0 hg1
  refine ⟨⟨(hgm frames).1, (hgm frames).2⟩, fun i c => ⟨?_, ?_⟩⟩
  · show |x i c * gateGains ((10 : ℝ) ^ ((gt.threshold_db.stepCore 1).current / 20))
        (calc_coeff gt.fs ((gt.attack_ms.stepCore 5).current))
        (calc_coeff gt.fs ((gt.release_ms.stepCore 10).current))
        channels x gt.gain_state (i + 1)| ≤ |x i c|
    rw [abs_mul]
    have hgabs : |gateGains ((10 : ℝ) ^ ((gt.threshold_db.stepCore 1).current / 20))
        (calc_coeff gt.fs ((gt.attack_ms.stepCore 5).current))
        (calc_coeff gt.fs ((gt.release_ms.stepCore 10).current))
        channels x gt.gain_state (i + 1)| ≤ 1 :=
      abs_le.mpr ⟨by linarith [(hgm (i + 1)).1], (hgm (i + 1)).2⟩
    calc |x i c| * _ ≤ |x i c| * 1 :=
          mul_le_mul_of_nonneg_left hgabs (abs_nonneg _)
      _ = |x i c| := mul_one _
  · show 0 ≤ x i c * gateGains ((10 : ℝ) ^ ((gt.threshold_db.stepCore 1).current / 20))
        (calc_coeff gt.fs ((gt.attack_ms.stepCore 5).current))
        (calc_coeff gt.fs ((gt.release_ms.stepCore 10).current))
        channels x gt.gain_state (i + 1) * x i c
    nlinarith [sq_nonneg (x i c), (hgm (i + 1)).1]

/-- Witness for C10: the freshly initialised gate (gain 0) at 48 kHz on
a one-sample stereo block. -/
theorem spec_c10_gate_attenuates_witness :
    ((0 : ℝ) ≤ 0 ∧ (0 : ℝ) ≤ 1 ∧ (0 : ℝ) < 48000) ∧
    |(((NoiseGate.mk (SmoothParam.init (-40) (-80) 0) (SmoothParam.init 10 1 500)
          (SmoothParam.init 100 10 1000) 0 48000).process_into
        (fun _ _ => (1 : ℝ)) 1 2).1 0 0)| ≤ |(1 : ℝ)| :=
  ⟨⟨le_refl 0, by norm_num, by norm_num⟩,
   ((spec_c10_gate_attenuates
      (NoiseGate.mk (SmoothParam.init (-40) (-80) 0) (SmoothParam.init 10 1 500)
        (SmoothParam.init 100 10 1000) 0 48000)
      (fun _ _ => (1 : ℝ)) 1 2 (le_refl 0) (by norm_num) (by norm_num)).2 0 0).1⟩

/-- Every channel's absolute value is at most the detected peak. -/
lemma gatePeak_ge (row : ℕ → ℝ) : ∀ n c, c < n → |row c| ≤ gatePeak row n := by
  intro n
  induction n with
  | zero => intro c hc; omega
  | succ m ih =>
    intro c hc
    have hstep : gatePeak row m ≤ gatePeak row (m + 1) := by
      show gatePeak row m ≤ if gatePeak row m < |row m| then |row m| else gatePeak row m
      split_ifs with hlt
      · exact hlt.le
      · exact le_refl _
    rcases Nat.lt_succ_iff_lt_or_eq.mp hc with hlt | rfl
    · exact le_trans (ih c hlt) hstep
    · show |row c| ≤ if gatePeak row c < |row c| then |row c| else gatePeak row c
      split_ifs with hlt
      · exact le_refl _
      · exact not_lt.mp hlt

/-- The detected peak is either `0` (its starting accumulator value) or
the absolute value of one of the channels. -/
lemma gatePeak_cases (row : ℕ → ℝ) :
    ∀ n, gatePeak row n = 0 ∨ ∃ c, c < n ∧ gatePeak row n = |row c| := by
  intro n
  induction n with
  | zero => exact Or.inl rfl
  | succ m ih =>
    by_cases hlt : gatePeak row m < |row m|
    · refine Or.inr ⟨m, Nat.lt_succ_self m, ?_⟩
      show (if gatePeak row m < |row m| then |row m| else gatePeak row m) = |row m|
      rw [if_pos hlt]
    · rcases ih with h0 | ⟨c, hc, heq⟩
      · left
        show (if gatePeak row m < |row m| then |row m| else gatePeak row m) = 0
        rw [if_neg hlt]
        exact h0
      · refine Or.inr ⟨c, hc.trans (Nat.lt_succ_self m), ?_⟩
        show (if gatePeak row m < |row m| then |row m| else gatePeak row m) = |row c|
        rw [if_neg hlt]
        exact heq

/-- C5: `NoiseGateEffect.process_into` steps threshold/attack/release
once per block; the linear threshold is `10^(thresholdDb/20)`; the
attack and release coefficients are `1 - exp(-2.2/(timeMs*1e-3*fs))`
(for the in-range stepped times `≥ 1` ms); per sample, the gain takes a
one-pole step toward the target — `1` when the cross-channel peak
absolute level exceeds the linear threshold, else `0` — using the
attack coefficient when the gain is below the target and the release
coefficient otherwise, and every channel of the sample is multiplied by
that same updated gain. -/
theorem spec_c5_gate (gt : NoiseGate) (x : ℕ → ℕ → ℝ) (frames channels i c : ℕ)
    (hatt : 1 ≤ (gt.attack_ms.stepCore 5).current)
    (hrel : 1 ≤ (gt.release_ms.stepCore 10).current) :
    calc_coeff gt.fs ((gt.attack_ms.stepCore 5).current)
      = 1 - Real.exp (-(22 / 10)
          / ((gt.attack_ms.stepCore 5).current * (1 / 1000) * gt.fs)) ∧
    calc_coeff gt.fs ((gt.release_ms.stepCore 10).current)
      = 1 - Real.exp (-(22 / 10)
          / ((gt.release_ms.stepCore 10).current * (1 / 1000) * gt.fs)) ∧
    (gt.process_into x frames channels).1 i c
      = x i c * gateGains ((10 : ℝ) ^ ((gt.threshold_db.stepCore 1).current / 20))
          (calc_coeff gt.fs ((gt.attack_ms.stepCore 5).current))
          (calc_coeff gt.fs ((gt.release_ms.stepCore 10).current))
          channels x gt.gain_state (i + 1) ∧
    (∀ (thresh ac rc g0 : ℝ),
      gateGains thresh ac rc channels x g0 (i + 1)
        = (if gateGains thresh ac rc channels x g0 i
              < (if thresh < gatePeak (x i) channels then (1 : ℝ) else 0)
           then (1 - ac) * gateGains thresh ac rc channels x g0 i
              + ac * (if thresh < gatePeak (x i) channels then (1 : ℝ) else 0)
           else (1 - rc) * gateGains thresh ac rc channels x g0 i
              + rc * (if thresh < gatePeak (x i) channels then (1 : ℝ) else 0))) ∧
    (∀ cc, cc < channels → |x i cc| ≤ gatePeak (x i) channels) ∧
    (gatePeak (x i) channels = 0 ∨
      ∃ cc, cc < channels ∧ gatePeak (x i) channels = |x i cc|) ∧
    (gt.process_into x frames channels).2.threshold_db = gt.threshold_db.stepCore 1 ∧
    (gt.process_into x frames channels).2.attack_ms = gt.attack_ms.stepCore 5 ∧
    (gt.process_into x frames channels).2.release_ms = gt.release_ms.stepCore 10 ∧
    (gt.process_into x frames channels).2.gain_state
      = gateGains ((10 : ℝ) ^ ((gt.threshold_db.stepCore 1).current / 20))
          (calc_coeff gt.fs ((gt.attack_ms.stepCore 5).current))
          (calc_coeff gt.fs ((gt.release_ms.stepCore 10).current))
          channels x gt.gain_state frames := by
  have hco : ∀ t : ℝ, 1 ≤ t →
      calc_coeff gt.fs t = 1 - Real.exp (-(22 / 10) / (t * (1 / 1000) * gt.fs)) := by
    intro t htt
    unfold calc_coeff
    rw [max_eq_right (by linarith : (1 / 1000 : ℝ) ≤ t * (1 / 1000))]
  refine ⟨hco _ hatt, hco _ hrel, rfl, fun thresh ac rc g0 => rfl,
    fun cc hcc => gatePeak_ge (x i) channels cc hcc, gatePeak_cases (x i) channels,
    rfl, rfl, rfl, rfl⟩

/-- Witness for C5: the default gate state after one block step. -/
theorem spec_c5_gate_witness :
    (1 : ℝ) ≤ ((SmoothParam.init (10 : ℝ) 1 500).stepCore 5).current ∧
    (1 : ℝ) ≤ ((SmoothParam.init (100 : ℝ) 10 1000).stepCore 10).current ∧
    ((NoiseGate.mk (SmoothParam.init (-40) (-80) 0) (SmoothParam.init 10 1 500)
        (SmoothParam.init 100 10 1000) 0 48000).process_into
      (fun _ _ => (0 : ℝ)) 1 2).2.attack_ms = (SmoothParam.init (10 : ℝ) 1 500).stepCore 5 := by
  have h1 : (1 : ℝ) ≤ ((SmoothParam.init (10 : ℝ) 1 500).stepCore 5).current := by
    rw [stepCore_fixed rfl (by norm_num)]
    norm_num [SmoothParam.init]
  have h2 : (1 : ℝ) ≤ ((SmoothParam.init (100 : ℝ) 10 1000).stepCore 10).current := by
    rw [stepCore_fixed rfl (by norm_num)]
    norm_num [SmoothParam.init]
  exact ⟨h1, h2,
    (spec_c5_gate (NoiseGate.mk (SmoothParam.init (-40) (-80) 0)
        (SmoothParam.init 10 1 500) (SmoothParam.init 100 10 1000) 0 48000)
      (fun _ _ => (0 : ℝ)) 1 2 0 0 h1 h2).2.2.2.2.2.2.2.1⟩

/-! ## C6: octaver phasor step -/

/-- With a zero phasor step, the kernel leaves the phasor where it was
(for any phasor already in `[0, 1)`). -/
lemma pitch_kernel_phasor_const (size : ℕ) :
    ∀ (xs : List ℝ) (st : OctState), 0 ≤ st.phasor → st.phasor < 1 →
      (pitch_shift_kernel_cubic size 0 xs st).2.phasor = st.phasor := by
  intro xs
  induction xs with
  | nil => intro st _ _; rfl
  | cons a l ih =>
    intro st h0 h1
    have hstep : (octStep size 0 st a).2.phasor = st.phasor := by
      show (if 1 ≤ st.phasor + 0 then st.phasor + 0 - 1
            else if st.phasor + 0 < 0 then st.phasor + 0 + 1 else st.phasor + 0)
          = st.phasor
      rw [add_zero, if_neg (not_le.mpr h1), if_neg (not_lt.mpr h0)]
    show (pitch_shift_kernel_cubic size 0 l (octStep size 0 st a).2).2.phasor = st.phasor
    rw [ih (octStep size 0 st a).2 (by rw [hstep]; exact h0) (by rw [hstep]; exact h1),
      hstep]

/-- C6: the phasor step used by `OctaverEffect.process_into` is
`(1 - 2^(semitones/12)) / bufferSize`; with the semitones parameter at
current = target = 0 the stepped value stays 0, the ratio is
`2^0 = 1`, the step is `0`, and the phasor is unchanged by the call
(so the two read taps keep fixed offsets from the write head). -/
theorem spec_c6_octaver (oc : Octaver) (x : ℕ → ℕ → ℝ) (frames channels : ℕ)
    (hc : oc.semitones.current = 0) (ht : oc.semitones.target = 0)
    (hp0 : 0 ≤ oc.st.phasor) (hp1 : oc.st.phasor < 1) :
    (∀ (semi : ℝ) (sz : ℕ),
      octaverPhasorStep semi sz = (1 - (2 : ℝ) ^ (semi / 12)) / (sz : ℝ)) ∧
    (oc.semitones.stepCore (1 / 2)).current = 0 ∧
    octaverPhasorStep ((oc.semitones.stepCore (1 / 2)).current) oc.size = 0 ∧
    (oc.process_into x frames channels).2.st.phasor = oc.st.phasor := by
  have hsemi : (oc.semitones.stepCore (1 / 2)).current = 0 := by
    rw [stepCore_fixed (ht.trans hc.symm) (by norm_num), hc]
  have hstep : octaverPhasorStep ((oc.semitones.stepCore (1 / 2)).current) oc.size = 0 := by
    rw [hsemi]
    unfold octaverPhasorStep
    rw [show ((0 : ℝ) / 12) = 0 by norm_num, Real.rpow_zero]
    norm_num
  refine ⟨fun _ _ => rfl, hsemi, hstep, ?_⟩
  show (pitch_shift_kernel_cubic oc.size
      (octaverPhasorStep ((oc.semitones.stepCore (1 / 2)).current) oc.size)
      ((List.range frames).map fun i => monoMix channels (x i)) oc.st).2.phasor
    = oc.st.phasor
  rw [hstep]
  exact pitch_kernel_phasor_const oc.size _ oc.st hp0 hp1

/-- Witness for C6 at a freshly zeroed octaver state. -/
theorem spec_c6_octaver_witness :
    (SmoothParam.init (0 : ℝ) (-24) 24).current = 0 ∧
    (SmoothParam.init (0 : ℝ) (-24) 24).target = 0 ∧
    octaverPhasorStep (((SmoothParam.init (0 : ℝ) (-24) 24).stepCore (1 / 2)).current)
      (Octaver.mk (SmoothParam.init 0 (-24) 24) (SmoothParam.init (1 / 2) 0 1) 40 48000
        (OctState.mk (fun _ => 0) 0 0) 1920).size = 0 :=
  ⟨rfl, rfl,
   (spec_c6_octaver
      (Octaver.mk (SmoothParam.init 0 (-24) 24) (SmoothParam.init (1 / 2) 0 1) 40 48000
        (OctState.mk (fun _ => 0) 0 0) 1920)
      (fun _ _ => 0) 1 1 rfl rfl (le_refl 0) (by norm_num)).2.2.1⟩

/-! ## C1: stereo delay impulse response -/

/-- Wet output of `delay_kernel` with zero feedback, starting after `j`
samples have been written at slots `0..j-1` of an all-zero buffer:
sample `i` of the block reads back `x (j+i-dS)` once `j+i ≥ dS`, and
silence before that.  Holds as long as the run stays within one lap of
the ring (`j + N ≤ size`) and `0 < dS < size`. -/
lemma delay_kernel_char (size dS : ℕ) (x : ℕ → ℚ) (hdS0 : 0 < dS) (hdS : dS < size) :
    ∀ (N j : ℕ), j + N ≤ size →
      (delay_kernel size dS 0 ((List.range N).map fun i => x (j + i))
          (fun s => if s < j then x s else 0) j).1
        = (List.range N).map fun i => if dS ≤ j + i then x (j + i - dS) else 0 := by
  intro N
  induction N with
  | zero => intro j _; rfl
  | succ n ih =>
    intro j hj
    have hjlt : j < size := by omega
    rw [List.range_succ_eq_map, List.map_cons, List.map_cons, List.map_map, List.map_map]
    simp only [Function.comp_def, Nat.add_zero]
    have hr : ((((j : ℤ) - (dS : ℤ)) % (size : ℤ))).toNat
        = if dS ≤ j then j - dS else j + size - dS := by
      rcases le_or_lt dS j with hle | hgt
      · rw [if_pos hle, Int.emod_eq_of_lt (by omega) (by omega)]
        omega
      · rw [if_neg (by omega),
          show ((j : ℤ) - (dS : ℤ)) % (size : ℤ)
              = ((j : ℤ) - (dS : ℤ) + (size : ℤ)) % (size : ℤ)
            from (Int.add_emod_self ..).symm,
          Int.emod_eq_of_lt (by omega) (by omega)]
        omega
    have hbufr : (fun s => if s < j then x s else 0)
        (((((j : ℤ) - (dS : ℤ)) % (size : ℤ))).toNat)
        = if dS ≤ j then x (j - dS) else 0 := by
      rw [hr]
      rcases le_or_lt dS j with hle | hgt
      · rw [show (if dS ≤ j then j - dS else j + size - dS) = j - dS from if_pos hle]
        show (if j - dS < j then x (j - dS) else 0) = if dS ≤ j then x (j - dS) else 0
        rw [if_pos (by omega), if_pos hle]
      · rw [show (if dS ≤ j then j - dS else j + size - dS) = j + size - dS
          from if_neg (by omega)]
        show (if j + size - dS < j then x (j + size - dS) else 0)
          = if dS ≤ j then x (j - dS) else 0
        rw [if_neg (by omega), if_neg (by omega)]
    have hupd : Function.update (fun s => if s < j then x s else 0) j
          (x j + (fun s => if s < j then x s else 0)
            (((((j : ℤ) - (dS : ℤ)) % (size : ℤ))).toNat) * 0)
        = fun s => if s < j + 1 then x s else 0 := by
      funext s
      rw [Function.update_apply]
      rcases eq_or_ne s j with rfl | hne
      · rw [if_pos rfl, if_pos (by omega : s < s + 1), mul_zero, add_zero]
      · rw [if_neg hne]
        rcases lt_or_ge s j with hlt | hge
        · rw [if_pos hlt, if_pos (by omega)]
        · rw [if_neg (by omega), if_neg (by omega)]
    have hcons : (delay_kernel size dS 0
          (x j :: List.map (fun i => x (j + Nat.succ i)) (List.range n))
          (fun s => if s < j then x s else 0) j).1
        = (fun s => if s < j then x s else 0)
            (((((j : ℤ) - (dS : ℤ)) % (size : ℤ))).toNat)
          :: (delay_kernel size dS 0
              (List.map (fun i => x (j + Nat.succ i)) (List.range n))
              (Function.update (fun s => if s < j then x s else 0) j
                (x j + (fun s => if s < j then x s else 0)
                  (((((j : ℤ) - (dS : ℤ)) % (size : ℤ))).toNat) * 0))
              (if j + 1 = size then 0 else j + 1)).1 := rfl
    rw [hcons, hupd, hbufr]
    congr 1
    rcases Nat.eq_zero_or_pos n with rfl | hn
    · rfl
    · rw [if_neg (by omega : ¬ j + 1 = size)]
      rw [funext fun i : ℕ => congrArg x (show j + Nat.succ i = j + 1 + i by omega)]
      rw [funext fun i : ℕ =>
        show (if dS ≤ j + Nat.succ i then x (j + Nat.succ i - dS) else 0)
            = (if dS ≤ j + 1 + i then x (j + 1 + i - dS) else 0)
          from by rw [show j + Nat.succ i = j + 1 + i from by omega]]
      exact ih (j + 1) (by omega)

/-- The configured 1500 ms delay line at 48 kHz has 72001 slots. -/
lemma c1_size : (DelayLine.configure 48000 1500).size = 72001 := by
  show (⌊((48000 : ℕ) : ℚ) * 1500 / 1000⌋).toNat + 1 = 72001
  rw [show ((48000 : ℕ) : ℚ) * 1500 / 1000 = ((72000 : ℕ) : ℚ) by push_cast; norm_num,
    Int.floor_natCast]
  rfl

/-- Wet output of the freshly configured delay line on a block of `N`
samples, for a delay whose sample count `d0` is positive and within
the ring. -/
lemma delayLine_wet (dms : ℚ) (d0 N : ℕ) (x : ℕ → ℚ)
    (hd : (⌊((48000 : ℕ) : ℚ) * dms / 1000⌋).toNat = d0)
    (h0 : 0 < d0) (hlt : d0 < 72001) (hN : N ≤ 72001) :
    ((DelayLine.configure 48000 1500).process_into ((List.range N).map x) dms 0).1
      = (List.range N).map fun n => if d0 ≤ n then x (n - d0) else 0 := by
  show (delay_kernel (DelayLine.configure 48000 1500).size
      (if (DelayLine.configure 48000 1500).size
            ≤ (⌊((DelayLine.configure 48000 1500).fs : ℚ) * dms / 1000⌋).toNat
       then (DelayLine.configure 48000 1500).size - 1
       else (⌊((DelayLine.configure 48000 1500).fs : ℚ) * dms / 1000⌋).toNat)
      0 ((List.range N).map x) (DelayLine.configure 48000 1500).buf
      (DelayLine.configure 48000 1500).w).1 = _
  rw [c1_size, show (DelayLine.configure 48000 1500).fs = 48000 from rfl, hd,
    if_neg (by omega)]
  have hbuf : (DelayLine.configure 48000 1500).buf
      = fun s => if s < 0 then x s else 0 := by
    funext s
    show (0 : ℚ) = if s < 0 then x s else 0
    rw [if_neg (Nat.not_lt_zero s)]
  have hxs : (List.range N).map x = (List.range N).map fun i => x (0 + i) := by
    congr 1
    funext i
    rw [Nat.zero_add]
  rw [hbuf, hxs, show (DelayLine.configure 48000 1500).w = 0 from rfl,
    delay_kernel_char 72001 d0 x h0 hlt N 0 (by omega)]
  congr 1
  funext i
  rw [Nat.zero_add]

/-- Away from their own echo position, the two wet-path patterns of the
impulse response are pure Kronecker deltas. -/
lemma c1_delta (d : ℕ) (hd : 0 < d) : ∀ n : ℕ,
    (if d ≤ n then impulse (n - d) else 0) = (if n = d then (1 : ℚ) else 0) := by
  intro n
  by_cases h1 : n = d
  · subst h1
    rw [if_pos (le_refl _), if_pos rfl]
    show (if n - n = 0 then (1 : ℚ) else 0) = 1
    rw [if_pos (by omega)]
  · rw [if_neg h1]
    rcases le_or_lt d n with hge | hlt
    · rw [if_pos hge]
      show (if n - d = 0 then (1 : ℚ) else 0) = 0
      rw [if_neg (by omega)]
    · rw [if_neg (by omega)]

/-- The full stereo characterisation of `c1Delay` on an impulse block:
the left wet path fires only at sample 18000, the right wet path (whose
delay is `delayMs + offsetMs = 405 ms`, i.e. 19440 samples) only at
sample 19440. -/
lemma c1_out_eq (N : ℕ) (hN : N ≤ 72001) :
    c1OutL N = (List.range N).map
      (fun n => clip ((8 : ℚ) / 10 * impulse n
        + (8 : ℚ) / 10 * (if n = 18000 then 1 else 0))) ∧
    c1OutR N = (List.range N).map
      (fun n => clip ((8 : ℚ) / 10 * impulse n
        + (8 : ℚ) / 10 * (if n = 19440 then 1 else 0))) := by
  have hdL : (c1Delay.delay_ms.stepCore c1Delay.delay_step_ms).current = 375 := by
    rw [stepCore_fixed rfl ?_]
    · rfl
    · show (0 : ℚ) ≤ 1000 * (2 / ((48000 : ℕ) : ℚ))
      norm_num
  have hfb : (c1Delay.feedback.stepCore c1Delay.fb_step).current = 0 := by
    rw [stepCore_fixed rfl ?_]
    · rfl
    · show (0 : ℚ) ≤ 2 / 100
      norm_num
  have hdR : min ((c1Delay.delay_ms.stepCore c1Delay.delay_step_ms).current
      + c1Delay.offset_ms) (c1Delay.max_delay_ms - 1) = 405 := by
    rw [hdL]
    show min (375 + 30 : ℚ) (1500 - 1) = 405
    norm_num
  have h18 : (⌊((48000 : ℕ) : ℚ) * 375 / 1000⌋).toNat = 18000 := by
    rw [show ((48000 : ℕ) : ℚ) * 375 / 1000 = ((18000 : ℕ) : ℚ) by push_cast; norm_num,
      Int.floor_natCast]
    rfl
  have h19 : (⌊((48000 : ℕ) : ℚ) * 405 / 1000⌋).toNat = 19440 := by
    rw [show ((48000 : ℕ) : ℚ) * 405 / 1000 = ((19440 : ℕ) : ℚ) by push_cast; norm_num,
      Int.floor_natCast]
    rfl
  constructor
  · show List.zipWith
        (fun a wet => clip (c1Delay.mix_dry * a + c1Delay.mix_wet * wet))
        ((List.range N).map impulse)
        ((c1Delay.dlL.process_into ((List.range N).map impulse)
          ((c1Delay.delay_ms.stepCore c1Delay.delay_step_ms).current)
          ((c1Delay.feedback.stepCore c1Delay.fb_step).current)).1)
      = _
    rw [hdL, hfb, show c1Delay.dlL = DelayLine.configure 48000 1500 from rfl,
      delayLine_wet 375 18000 N impulse h18 (by omega) (by omega) hN,
      zipWith_map_same,
      show c1Delay.mix_dry = 8 / 10 from rfl, show c1Delay.mix_wet = 8 / 10 from rfl]
    simp only [c1_delta 18000 (by omega)]
  · show List.zipWith
        (fun a wet => clip (c1Delay.mix_dry * a + c1Delay.mix_wet * wet))
        ((List.range N).map impulse)
        ((c1Delay.dlR.process_into ((List.range N).map impulse)
          (min ((c1Delay.delay_ms.stepCore c1Delay.delay_step_ms).current
            + c1Delay.offset_ms) (c1Delay.max_delay_ms - 1))
          ((c1Delay.feedback.stepCore c1Delay.fb_step).current)).1)
      = _
    rw [hdR, hfb, show c1Delay.dlR = DelayLine.configure 48000 1500 from rfl,
      delayLine_wet 405 19440 N impulse h19 (by omega) (by omega) hN,
      zipWith_map_same,
      show c1Delay.mix_dry = 8 / 10 from rfl, show c1Delay.mix_wet = 8 / 10 from rfl]
    simp only [c1_delta 19440 (by omega)]

/-- C1 (counterexample to the claim as stated): the impulse does not
reappear *only* at sample 18000.  The right channel of the prepared
`StereoDelayEffect` is delayed by `delayMs + offsetMs = 405 ms`, so its
output is not the claimed "wet spike at 18000 only" signal: it differs
from it (the right wet path fires at sample 19440). -/
theorem spec_c1_delay_cex :
    c1OutR 19441 ≠ (List.range 19441).map
      (fun n => clip ((8 : ℚ) / 10 * impulse n
        + (8 : ℚ) / 10 * (if n = 18000 then 1 else 0))) := by
  intro hbad
  have h2 := (c1_out_eq 19441 (by norm_num)).2
  rw [h2] at hbad
  have hpt := congrArg (fun l : List ℚ => l[19440]?) hbad
  simp only [List.getElem?_map] at hpt
  rw [List.getElem?_range (by norm_num : 19440 < 19441)] at hpt
  simp only [Option.map_some'] at hpt
  have hval := Option.some.inj hpt
  norm_num [impulse, clip] at hval

/-- C1 (amended): with `feedback = 0`, `delayMs = 375` (current equal
to target) at 48 kHz, a unit impulse into both channels reappears,
scaled by `mix_wet = 0.8`, at sample `⌊48000*375/1000⌋ = 18000` of the
left channel and nowhere else in the left channel; in the right channel
(delayed by the fixed 30 ms stereo offset) it reappears at sample
`⌊48000*405/1000⌋ = 19440` and nowhere else.  Both channels also carry
the dry-scaled input. -/
theorem spec_c1_delay (N : ℕ) (hN : N ≤ 72001) :
    c1OutL N = (List.range N).map
      (fun n => clip ((8 : ℚ) / 10 * impulse n
        + (8 : ℚ) / 10 * (if n = 18000 then 1 else 0))) ∧
    c1OutR N = (List.range N).map
      (fun n => clip ((8 : ℚ) / 10 * impulse n
        + (8 : ℚ) / 10 * (if n = 19440 then 1 else 0))) :=
  c1_out_eq N hN

/-- Witness for C1 at a block long enough to contain both echoes. -/
theorem spec_c1_delay_witness :
    (19441 : ℕ) ≤ 72001 ∧
    c1OutL 19441 = (List.range 19441).map
      (fun n => clip ((8 : ℚ) / 10 * impulse n
        + (8 : ℚ) / 10 * (if n = 18000 then 1 else 0))) :=
  ⟨by norm_num, (spec_c1_delay 19441 (by norm_num)).1⟩

/-! ## C2: spectral filter round trip -/

/-- Complex conjugation inverts the standard additive character. -/
lemma stdAddChar_conj {N : ℕ} [NeZero N] (a : ZMod N) :
    (starRingEnd ℂ) (ZMod.stdAddChar a) = ZMod.stdAddChar (-a) := by
  rw [ZMod.stdAddChar_apply, ZMod.stdAddChar_apply, AddChar.map_neg_eq_inv,
    Circle.coe_inv_eq_conj]

/-- The DFT of a real-valued (conjugation-fixed) vector is Hermitian:
conjugating a bin reflects its frequency. -/
lemma dft_real_conj {N : ℕ} [NeZero N] (Φ : ZMod N → ℂ)
    (hΦ : ∀ j, (starRingEnd ℂ) (Φ j) = Φ j) (k : ZMod N) :
    (starRingEnd ℂ) (ZMod.dft Φ k) = ZMod.dft Φ (-k) := by
  rw [ZMod.dft_apply, ZMod.dft_apply, map_sum]
  refine Finset.sum_congr rfl fun j _ => ?_
  simp only [smul_eq_mul, map_mul, hΦ, stdAddChar_conj, mul_neg, neg_neg]

/-- Inversion: `irfft` undoes `rfft` on real input: the Hermitian extension of the
half spectrum recovers the full DFT, and the inverse transform then
recovers the signal. -/
lemma npIrfft_npRfft (N : ℕ) (hN : N ≠ 0) (v : ℕ → ℝ) (i : ℕ) (hi : i < N) :
    npIrfft N (npRfft N v) i = v i := by
  haveI : NeZero N := ⟨hN⟩
  unfold npIrfft
  rw [dif_neg hN]
  have hherm : (fun k : ZMod N =>
      if k.val ≤ N / 2 then npRfft N v k.val
      else (starRingEnd ℂ) (npRfft N v (N - k.val)))
      = ZMod.dft (fun j : ZMod N => ((v j.val : ℝ) : ℂ)) := by
    funext k
    by_cases hk : k.val ≤ N / 2
    · rw [if_pos hk]
      show npRfft N v k.val = _
      unfold npRfft
      rw [dif_neg hN, ZMod.natCast_zmod_val]
    · rw [if_neg hk]
      show (starRingEnd ℂ) (npRfft N v (N - k.val)) = _
      unfold npRfft
      rw [dif_neg hN]
      have hcast : ((N - k.val : ℕ) : ZMod N) = -k := by
        have hval : k.val ≤ N := (ZMod.val_lt k).le
        rw [Nat.cast_sub hval, ZMod.natCast_self, ZMod.natCast_zmod_val, zero_sub]
      rw [hcast, dft_real_conj _ (fun j => Complex.conj_ofReal _) (-k), neg_neg]
  rw [hherm, LinearEquiv.symm_apply_apply]
  show (((v ((i : ZMod N)).val : ℝ)) : ℂ).re = v i
  rw [Complex.ofReal_re, ZMod.val_natCast_of_lt hi]

/-- Averaging `np.mean` over a single channel is that channel. -/
lemma monoMix_one (row : ℕ → ℝ) : monoMix 1 row = row 0 := by
  unfold monoMix
  rw [Finset.sum_range_one]
  norm_num

/-- With reduction factor 1 both mask branches are 1, so the smoothed
mask of an all-ones mask stays all-ones. -/
lemma specMask_eq_one (alpha thresh red : ℝ) (hred : red = 1) (mp v : ℕ → ℝ) (N : ℕ)
    (hmp : ∀ k, mp k = 1) (k : ℕ) :
    specMask alpha thresh red mp v N k = 1 := by
  unfold specMask
  rw [hmp, hred]
  split_ifs <;> ring

/-- With an all-ones mask the synthesis stage is the exact inverse of
the analysis stage: `magnitude * 1 * exp(I*phase)` is the spectrum
itself, and `irfft ∘ rfft` is the identity on the frame. -/
lemma specSynth_mask_one (N : ℕ) (hN : N ≠ 0) (mask v : ℕ → ℝ)
    (hm : ∀ k, mask k = 1) (i : ℕ) (hi : i < N) :
    specSynth N mask v i = v i := by
  unfold specSynth
  rw [show (fun k => ((Complex.abs (npRfft N v k) * mask k : ℝ) : ℂ)
      * Complex.exp ((Complex.arg (npRfft N v k) : ℂ) * Complex.I)) = npRfft N v
    from funext fun k => by rw [hm, mul_one]; exact Complex.abs_mul_exp_arg_mul_I _]
  exact npIrfft_npRfft N hN v i hi

/-- One call of the `reduction = 1` spectral filter: the invariant is
preserved and the emitted block is the stream delayed by one hop and
scaled per position by `hann i + hann (i + hop)`. -/
lemma spec_step_char (x : ℕ → ℝ) (hop : ℕ) (hhop : 0 < hop) (j : ℕ) (st : SpectralState)
    (hst : specGood x hop j st) :
    specGood x hop (j + 1)
      (SpectralFilter.process_into st (fun i _ => x (j * hop + i)) 1).2 ∧
    ∀ i, i < hop →
      (SpectralFilter.process_into st (fun i _ => x (j * hop + i)) 1).1 i
        = (hann (2 * hop) i + hann (2 * hop) (i + hop))
            * extZ x ((j : ℤ) * hop + i - hop) := by
  obtain ⟨hhopEq, hrc, hrt, hmask, hin, hout⟩ := hst
  subst hhopEq
  have hred : (st.reduction.stepCore (5 / 100)).current = 1 := by
    rw [stepCore_fixed (by rw [hrt, hrc]) (by norm_num), hrc]
  have hmask1 : ∀ k, specNewMask st (fun i _ => x (j * st.hop + i)) 1 k = 1 := by
    intro k
    unfold specNewMask
    exact specMask_eq_one _ _ _ hred _ _ _ hmask k
  have hshift : ∀ i, i < 2 * st.hop →
      specShiftIn st.hop st.in_buffer
        (fun t => monoMix 1 ((fun i _ => x (j * st.hop + i)) t)) i
      = extZ x (((j + 1 : ℕ) : ℤ) * st.hop + i - 2 * st.hop) := by
    intro i hi2
    unfold specShiftIn
    rw [show 2 * st.hop - st.hop = st.hop from by omega]
    by_cases hi : i < st.hop
    · rw [if_pos hi, hin (i + st.hop) (by omega)]
      congr 1
      push_cast
      ring
    · rw [if_neg hi]
      show monoMix 1 ((fun i _ => x (j * st.hop + i)) (i - st.hop)) = _
      rw [monoMix_one]
      show x (j * st.hop + (i - st.hop)) = _
      rw [show (((j + 1 : ℕ) : ℤ) * st.hop + (i : ℤ) - 2 * st.hop)
          = ((j * st.hop + (i - st.hop) : ℕ) : ℤ) from by
        push_cast [Nat.cast_sub (not_lt.mp hi)]
        ring]
      unfold extZ
      rw [if_neg (not_lt.mpr (Int.natCast_nonneg _)), Int.toNat_natCast]
  have hN2 : 2 * st.hop ≠ 0 := by omega
  have hpt : ∀ i, i < 2 * st.hop →
      specPT st (fun i _ => x (j * st.hop + i)) 1 i
        = specWindowed st (fun i _ => x (j * st.hop + i)) 1 i := by
    intro i hi
    unfold specPT
    exact specSynth_mask_one _ hN2 _ _ hmask1 i hi
  have hwind : ∀ i, i < 2 * st.hop →
      specWindowed st (fun i _ => x (j * st.hop + i)) 1 i
        = extZ x (((j + 1 : ℕ) : ℤ) * st.hop + i - 2 * st.hop) * hann (2 * st.hop) i := by
    intro i hi
    unfold specWindowed
    rw [hshift i hi]
  refine ⟨⟨rfl, hred, hrt, hmask1, fun i hi => hshift i hi, ?_⟩, ?_⟩
  · intro i
    show (if i < 2 * st.hop - st.hop
        then st.out_accum (i + st.hop)
          + specPT st (fun i _ => x (j * st.hop + i)) 1 (i + st.hop)
        else 0) = _
    rw [show 2 * st.hop - st.hop = st.hop from by omega]
    by_cases hi : i < st.hop
    · rw [if_pos hi, if_pos hi, hout (i + st.hop), if_neg (by omega), zero_add,
        hpt (i + st.hop) (by omega), hwind (i + st.hop) (by omega),
        show (((j + 1 : ℕ) : ℤ) * st.hop + ((i + st.hop : ℕ) : ℤ) - 2 * st.hop)
            = (((j + 1 : ℕ) : ℤ) * st.hop + (i : ℤ) - st.hop) from by push_cast; ring,
        mul_comm]
    · rw [if_neg hi, if_neg hi]
  · intro i hi
    show st.out_accum i + specPT st (fun i _ => x (j * st.hop + i)) 1 i = _
    rw [hout i, if_pos hi, hpt i (by omega), hwind i (by omega),
      show (((j + 1 : ℕ) : ℤ) * st.hop + (i : ℤ) - 2 * st.hop)
          = ((j : ℤ) * st.hop + (i : ℤ) - st.hop) from by push_cast; ring]
    ring

/-- The freshly initialised filter satisfies the run invariant. -/
lemma spec_init_good (x : ℕ → ℝ) (hop : ℕ) (th alpha : ℝ) :
    specGood x hop 0 (SpectralFilter.init th 1 alpha hop) := by
  refine ⟨rfl, rfl, rfl, fun _ => rfl, fun i hi => ?_, fun i => ?_⟩
  · show (0 : ℝ) = extZ x ((0 : ℤ) * hop + i - 2 * hop)
    unfold extZ
    rw [if_pos (by omega)]
  · show (0 : ℝ) = _
    by_cases hi : i < hop
    · rw [if_pos hi]
      unfold extZ
      rw [if_pos (by push_cast; omega)]
      ring
    · rw [if_neg hi]

/-- The run invariant holds after every number of calls. -/
lemma specRun_good (x : ℕ → ℝ) (hop : ℕ) (hhop : 0 < hop) (th alpha : ℝ) :
    ∀ j, specGood x hop j (specRun (SpectralFilter.init th 1 alpha hop) x j) := by
  intro j
  induction j with
  | zero => exact spec_init_good x hop th alpha
  | succ n ih => exact (spec_step_char x hop hhop n _ ih).1

/-- The block emitted by call `j` of the `reduction = 1` run: stream
sample `(j-1)*hop + i`, scaled by `hann i + hann (i + hop)` (zero for
the first call, which only sees zero history at the emit positions). -/
lemma specEmit_eq (x : ℕ → ℝ) (hop : ℕ) (hhop : 0 < hop) (th alpha : ℝ) (j i : ℕ)
    (hi : i < hop) :
    specEmit (SpectralFilter.init th 1 alpha hop) x j i
      = (hann (2 * hop) i + hann (2 * hop) (i + hop))
          * extZ x ((j : ℤ) * hop + i - hop) :=
  (spec_step_char x hop hhop j _ (specRun_good x hop hhop th alpha j)).2 i hi

/-- Closed form of the overlap-add gain of the symmetric Hann window at
50% overlap: `hann i + hann (i + hop) = 1 - sin(θ + s) * sin s` with
`θ = 2πi/(N-1)` and `s = π/(2(N-1))`, `N = 2*hop`. -/
lemma hannGain_closed (hop i : ℕ) (hhop : 0 < hop) :
    hann (2 * hop) i + hann (2 * hop) (i + hop)
      = 1 - Real.sin (2 * Real.pi * i / (2 * (hop : ℝ) - 1)
            + Real.pi / (2 * (2 * (hop : ℝ) - 1)))
          * Real.sin (Real.pi / (2 * (2 * (hop : ℝ) - 1))) := by
  have hone : (1 : ℝ) ≤ (hop : ℝ) := by exact_mod_cast hhop
  have hne : 2 * (hop : ℝ) - 1 ≠ 0 := by nlinarith
  unfold hann
  rw [show ((2 * hop : ℕ) : ℝ) - 1 = 2 * (hop : ℝ) - 1 from by push_cast; ring,
    show ((i + hop : ℕ) : ℝ) = (i : ℝ) + hop from by push_cast; ring]
  have key : Real.cos (2 * Real.pi * i / (2 * (hop : ℝ) - 1))
        + Real.cos (2 * Real.pi * ((i : ℝ) + hop) / (2 * (hop : ℝ) - 1))
      = 2 * Real.sin (2 * Real.pi * i / (2 * (hop : ℝ) - 1)
            + Real.pi / (2 * (2 * (hop : ℝ) - 1)))
          * Real.sin (Real.pi / (2 * (2 * (hop : ℝ) - 1))) := by
    rw [Real.cos_add_cos]
    rw [show (2 * Real.pi * i / (2 * (hop : ℝ) - 1)
          + 2 * Real.pi * ((i : ℝ) + hop) / (2 * (hop : ℝ) - 1)) / 2
        = (2 * Real.pi * i / (2 * (hop : ℝ) - 1)
            + Real.pi / (2 * (2 * (hop : ℝ) - 1))) + Real.pi * hop / (2 * (hop : ℝ) - 1)
            - Real.pi / (2 * (2 * (hop : ℝ) - 1)) from by ring]
    rw [show (2 * Real.pi * i / (2 * (hop : ℝ) - 1)
          - 2 * Real.pi * ((i : ℝ) + hop) / (2 * (hop : ℝ) - 1)) / 2
        = -(Real.pi * hop / (2 * (hop : ℝ) - 1)) from by ring]
    rw [Real.cos_neg]
    have hsplit : Real.pi * hop / (2 * (hop : ℝ) - 1)
        = Real.pi / 2 + Real.pi / (2 * (2 * (hop : ℝ) - 1)) := by
      rw [show (hop : ℝ) = ((2 * (hop : ℝ) - 1) + 1) / 2 from by ring]
      field_simp
      ring
    rw [hsplit]
    rw [show (2 * Real.pi * i / (2 * (hop : ℝ) - 1)
          + Real.pi / (2 * (2 * (hop : ℝ) - 1)))
          + (Real.pi / 2 + Real.pi / (2 * (2 * (hop : ℝ) - 1)))
          - Real.pi / (2 * (2 * (hop : ℝ) - 1))
        = (2 * Real.pi * i / (2 * (hop : ℝ) - 1)
            + Real.pi / (2 * (2 * (hop : ℝ) - 1))) + Real.pi / 2 from by ring]
    rw [show Real.pi / 2 + Real.pi / (2 * (2 * (hop : ℝ) - 1))
        = Real.pi / (2 * (2 * (hop : ℝ) - 1)) + Real.pi / 2 from by ring]
    rw [Real.cos_add_pi_div_two, Real.cos_add_pi_div_two]
    ring
  linarith [key]

/-- The overlap-add gain is within `π/(2(N-1))` of unity. -/
lemma hannGain_near_one (hop i : ℕ) (hhop : 0 < hop) :
    |hann (2 * hop) i + hann (2 * hop) (i + hop) - 1|
      ≤ Real.pi / (2 * (2 * (hop : ℝ) - 1)) := by
  have hone : (1 : ℝ) ≤ (hop : ℝ) := by exact_mod_cast hhop
  have hD : (0 : ℝ) < 2 * (hop : ℝ) - 1 := by nlinarith
  have hs : 0 ≤ Real.pi / (2 * (2 * (hop : ℝ) - 1)) := by positivity
  rw [hannGain_closed hop i hhop]
  rw [show (1 : ℝ) - Real.sin (2 * Real.pi * i / (2 * (hop : ℝ) - 1)
        + Real.pi / (2 * (2 * (hop : ℝ) - 1)))
        * Real.sin (Real.pi / (2 * (2 * (hop : ℝ) - 1))) - 1
      = -(Real.sin (2 * Real.pi * i / (2 * (hop : ℝ) - 1)
          + Real.pi / (2 * (2 * (hop : ℝ) - 1)))
          * Real.sin (Real.pi / (2 * (2 * (hop : ℝ) - 1)))) from by ring]
  rw [abs_neg, abs_mul]
  calc |Real.sin (2 * Real.pi * i / (2 * (hop : ℝ) - 1)
          + Real.pi / (2 * (2 * (hop : ℝ) - 1)))|
        * |Real.sin (Real.pi / (2 * (2 * (hop : ℝ) - 1)))|
      ≤ 1 * |Real.sin (Real.pi / (2 * (2 * (hop : ℝ) - 1)))| :=
        mul_le_mul_of_nonneg_right (Real.abs_sin_le_one _) (abs_nonneg _)
    _ = |Real.sin (Real.pi / (2 * (2 * (hop : ℝ) - 1)))| := one_mul _
    _ ≤ |Real.pi / (2 * (2 * (hop : ℝ) - 1))| := Real.abs_sin_le_abs
    _ = Real.pi / (2 * (2 * (hop : ℝ) - 1)) := abs_of_nonneg hs

/-- C2 (counterexample to the claim as stated): the reconstruction gain
of the `reduction = 1` round trip is *not* a single constant.  On the
all-ones input stream with the default 256-sample hop, the first
steady-state emitted block has different values at positions 0 and 128,
although the corresponding input samples are equal — because
`np.hanning` is the symmetric Hann window, whose shifted sum
`hann i + hann (i + hop)` depends on `i`. -/
theorem spec_c2_spectral_cex :
    specEmit (SpectralFilter.init (-40) 1 (8 / 10) 256) (fun _ => (1 : ℝ)) 1 0
      ≠ specEmit (SpectralFilter.init (-40) 1 (8 / 10) 256) (fun _ => (1 : ℝ)) 1 128 := by
  have h0 := specEmit_eq (fun _ => (1 : ℝ)) 256 (by norm_num) (-40) (8 / 10) 1 0
    (by norm_num)
  have h128 := specEmit_eq (fun _ => (1 : ℝ)) 256 (by norm_num) (-40) (8 / 10) 1 128
    (by norm_num)
  have hext : ∀ t : ℤ, 0 ≤ t → extZ (fun _ => (1 : ℝ)) t = 1 := by
    intro t ht
    unfold extZ
    rw [if_neg (not_lt.mpr ht)]
  rw [h0, h128, hext _ (by norm_num), hext _ (by norm_num), mul_one, mul_one]
  rw [hannGain_closed 256 0 (by norm_num), hannGain_closed 256 128 (by norm_num)]
  rw [show (2 * ((256 : ℕ) : ℝ) - 1) = 511 from by norm_num]
  rw [show 2 * Real.pi * ((0 : ℕ) : ℝ) / 511 + Real.pi / (2 * 511)
      = Real.pi / 1022 from by push_cast; ring]
  rw [show 2 * Real.pi * ((128 : ℕ) : ℝ) / 511 + Real.pi / (2 * 511)
      = Real.pi / 511 + Real.pi / 2 from by push_cast; ring]
  rw [show Real.pi / (2 * 511) = Real.pi / 1022 from by ring]
  rw [Real.sin_add_pi_div_two]
  have hpilt : Real.pi < 315 / 100 := by
    have := Real.pi_lt_d2
    norm_num at this
    linarith
  have hpipos : 0 < Real.pi := Real.pi_pos
  have hsinpos : 0 < Real.sin (Real.pi / 1022) :=
    Real.sin_pos_of_pos_of_lt_pi (by positivity) (by nlinarith)
  have hsin_small : Real.sin (Real.pi / 1022) < 1 / 2 := by
    have h1 : Real.sin (Real.pi / 1022) < Real.pi / 1022 := Real.sin_lt (by positivity)
    nlinarith
  have hcos_big : Real.cos (Real.pi / 4) < Real.cos (Real.pi / 511) :=
    Real.cos_lt_cos_of_nonneg_of_le_pi (by positivity) (by nlinarith) (by nlinarith)
  have hsqrt : (1 : ℝ) ≤ Real.sqrt 2 := by
    rw [show (1 : ℝ) = Real.sqrt 1 from (Real.sqrt_one).symm]
    exact Real.sqrt_le_sqrt (by norm_num)
  have hlt : Real.sin (Real.pi / 1022) < Real.cos (Real.pi / 511) := by
    have h4 : Real.cos (Real.pi / 4) = Real.sqrt 2 / 2 := Real.cos_pi_div_four
    nlinarith
  intro hEq
  nlinarith [mul_pos hsinpos (sub_pos.mpr hlt)]

/-- C2 (amended): with `reduction = 1` (current equal to target; raw
and smoothed masks stay all-ones) the window → FFT → mask → IFFT →
overlap-add round trip of `SpectralFilter.process_into` reconstructs
the mono-mixed input stream with one hop of latency, scaled by the
position-dependent (not constant) overlap-add gain
`hann i + hann (i + hop)`, which is within `π/(2(nFFT-1))` of unity
(≈ 0.31% for the default `nFFT = 512`); the first `nFFT - hop = hop`
output samples (the whole first block) are zero. -/
theorem spec_c2_spectral (hop : ℕ) (hhop : 0 < hop) (x : ℕ → ℝ) (th alpha : ℝ)
    (j i : ℕ) (hi : i < hop) :
    specEmit (SpectralFilter.init th 1 alpha hop) x (j + 1) i
      = (hann (2 * hop) i + hann (2 * hop) (i + hop)) * x (j * hop + i) ∧
    specEmit (SpectralFilter.init th 1 alpha hop) x 0 i = 0 ∧
    |hann (2 * hop) i + hann (2 * hop) (i + hop) - 1|
      ≤ Real.pi / (2 * (2 * (hop : ℝ) - 1)) := by
  refine ⟨?_, ?_, hannGain_near_one hop i hhop⟩
  · rw [specEmit_eq x hop hhop th alpha (j + 1) i hi]
    congr 1
    rw [show (((j + 1 : ℕ) : ℤ) * hop + (i : ℤ) - hop) = ((j * hop + i : ℕ) : ℤ)
      from by push_cast; ring]
    unfold extZ
    rw [if_neg (not_lt.mpr (Int.natCast_nonneg _)), Int.toNat_natCast]
  · rw [specEmit_eq x hop hhop th alpha 0 i hi]
    unfold extZ
    rw [if_pos (by omega)]
    ring

/-- Witness for C2: the very first emitted block of a unit-hop filter
is zero. -/
theorem spec_c2_spectral_witness :
    0 < 1 ∧ specEmit (SpectralFilter.init 0 1 0 1) (fun _ => (1 : ℝ)) 0 0 = 0 :=
  ⟨by norm_num,
   (spec_c2_spectral 1 (by norm_num) (fun _ => (1 : ℝ)) 0 0 0 0 (by norm_num)).2.1⟩

end AudioBlocks
